import Mathlib

/-!
Verification of the attention-to-line-score attribution pipeline of
`src/deploy.py` (functions `main`, `get_word_att_scores`,
`get_all_lines_score`, `clean_special_token_values`,
`statement_tokenization`).

Modelling conventions:
* Attention weights and scores are rationals (`ℚ`): the source's floating
  point arithmetic is modelled exactly; all inputs in the claims are small
  finite values where float and exact arithmetic agree on the control flow.
* A per-example attention tensor is a list of `L × L` matrices
  (`List (List (List ℚ))`): the first axis is the layer/head axis that the
  source iterates with `for i in range(len(attentions[0]))` and sums over;
  each matrix entry `m[q][k]` is the attention from query position `q` to
  key position `k`.
* Fallible operations return `Option`: `none` models a Python `IndexError`
  (indexing `[-1]` into an empty list, indexing into an empty array) or an
  invalid floating result (numpy `0.0/0.0 = NaN`).
-/

/-- The line separator glyph used by `get_all_lines_score`
(`separator = "Ċ"` in the source).  The Python test `separator in token` is
substring containment; because the separator is a single character this is
exactly character membership. -/
def separatorChar : Char := 'Ċ'

/-- Python `separator in token` from `get_all_lines_score`
(src/deploy.py line 168/175). -/
def sepIn (s : String) : Bool := s.toList.contains separatorChar

/-- The loop body of `get_all_lines_score` (src/deploy.py lines 158-178),
with the running `score_sum` made explicit.  The source iterates
`for i in range(len(word_att_scores))` and tests
`((separator in token) or (i == len - 1)) and score_sum != 0`; the
one-element case below is the `i == len - 1` iteration (where the
condition's first disjunct is irrelevant), the cons case is every earlier
iteration.  The informational `line` string buffer of the source is not
modelled (it is never read). -/
def lineAux : ℚ → List (String × ℚ) → List ℚ
  | _, [] => []
  | acc, [t] => if acc ≠ 0 then [acc + t.2] else []
  | acc, t :: u :: rest =>
    if sepIn t.1 then
      if acc ≠ 0 then (acc + t.2) :: lineAux 0 (u :: rest)
      else lineAux acc (u :: rest)
    else lineAux (acc + t.2) (u :: rest)

/-- `get_all_lines_score` (src/deploy.py lines 158-178): `score_sum` and
`line_idx` start at zero; `.item()` (tensor to float) is the identity in
this model. -/
def get_all_lines_score (word_att_scores : List (String × ℚ)) : List ℚ :=
  lineAux 0 word_att_scores

/-- `get_word_att_scores` (src/deploy.py lines 150-155): pairs each token
with its attention score.  The source indexes `att_scores[i]` for every
`i < len(tokens)`; on the equal-length inputs produced by the pipeline this
is exactly `zip`. -/
def get_word_att_scores (tokens : List String) (att_scores : List ℚ) :
    List (String × ℚ) :=
  tokens.zip att_scores

/-- `clean_special_token_values` (src/deploy.py lines 181-191).
`all_values[0] = 0` raises `IndexError` on an empty input (modelled
`none`).  In the `padding` branch the source takes
`[index for index, item in enumerate(all_values) if item != 0][-1]`
after position 0 has been zeroed; `[-1]` on an empty list raises
`IndexError` (modelled `none`). -/
def clean_special_token_values (all_values : List ℚ) (padding : Bool) :
    Option (List ℚ) :=
  if all_values = [] then none
  else
    let v1 := all_values.set 0 0
    if padding then
      match ((v1.enum.filter (fun p => decide (p.2 ≠ 0))).map Prod.fst).getLast? with
      | none => none
      | some idx => some (v1.set idx 0)
    else
      some (v1.set (v1.length - 1) 0)

/-- The scrubbing call the pipeline `main` actually performs
(src/deploy.py line 134):
`clean_special_token_values(batch_att_weight_sum[i], padding=True)` —
the `padding` argument is the literal `True` for every input, whatever the
input's actual padding status. -/
def main_scrub (v : List ℚ) : Option (List ℚ) :=
  clean_special_token_values v true

/-- Minimum of a nonempty list (`numpy .min()`, src/deploy.py line 127);
the empty case (where numpy raises) is given the junk value 0 and is
excluded by hypotheses wherever it matters. -/
def listMin : List ℚ → ℚ
  | [] => 0
  | x :: xs => xs.foldl min x

/-- Maximum of a nonempty list (`numpy .max()`, src/deploy.py line 128). -/
def listMax : List ℚ → ℚ
  | [] => 0
  | x :: xs => xs.foldl max x

/-- The normalization step of `main` (src/deploy.py lines 126-128):
`att_weight_sum -= att_weight_sum.min(); att_weight_sum /= att_weight_sum.max()`.
The divisor is the maximum taken after the subtraction.  When that maximum
is zero every entry of the subtracted vector is zero (the minimum was
subtracted), so every division is `0.0/0.0 = NaN` in numpy: the resulting
all-NaN vector is modelled as `none`.  The source performs no explicit
check before dividing. -/
def normalizeAtt (v : List ℚ) : Option (List ℚ) :=
  let m := listMin v
  let w := v.map (fun x => x - m)
  let M := listMax w
  if M = 0 then none else some (w.map (fun x => x / M))

/-- Element-wise addition of two vectors (numpy `+=` on equal-shape 1-D
arrays, src/deploy.py line 125). -/
def addVec (a b : List ℚ) : List ℚ := List.zipWith (· + ·) a b

/-- Python builtin `sum(layer_attention)` on a 2-D array
(src/deploy.py line 121): iterates the first (query) axis and adds the rows
element-wise, so entry `p` of the result is the sum of column `p`, the
total attention received by key position `p`.  The empty-matrix case
(where Python would leave the scalar `0`) is modelled as `[]` and excluded
by hypotheses. -/
def pySum : List (List ℚ) → List ℚ
  | [] => []
  | r :: rs => rs.foldl addVec r

/-- The accumulation loop of `main` over one example
(src/deploy.py lines 116-125): `att_weight_sum` starts as `None`, takes the
first slice's `sum(...)`, then accumulates the remaining slices with `+=`.
The source reads the slice count from `attentions[0]`; for the homogeneous
tensors the model produces this equals each example's own slice count,
which is what is iterated here. -/
def accumulate : List (List (List ℚ)) → List ℚ
  | [] => []
  | m :: ms => ms.foldl (fun acc m' => addVec acc (pySum m')) (pySum m)

/-- One example's aggregated attention (src/deploy.py lines 116-128):
accumulation followed by min-max normalization. -/
def aggregate_attention (att : List (List (List ℚ))) : Option (List ℚ) :=
  normalizeAtt (accumulate att)

/-- The batch loop `for j in range(len(attentions))`
(src/deploy.py lines 115-129): each example is aggregated independently. -/
def batch_aggregate (atts : List (List (List (List ℚ)))) :
    List (Option (List ℚ)) :=
  atts.map aggregate_attention

/-- The aggregation as the spec's words state it (for comparison with
`aggregate_attention`): "for each layer, for each head, compute the
per-query-position sum over all key positions (row-sum of the attention
matrix)" — entry `p` is the sum of row `p`. -/
def claimed_rowsum (m : List (List ℚ)) : List ℚ :=
  m.map (fun r => r.sum)

/-- Accumulation of the spec-claimed row-sum vectors across all slices,
mirroring the structure of `accumulate`. -/
def claimed_accumulate : List (List (List ℚ)) → List ℚ
  | [] => []
  | m :: ms => ms.foldl (fun acc m' => addVec acc (claimed_rowsum m')) (claimed_rowsum m)

/-- The aggregation the claim describes: row sums accumulated, then the
same min-max normalization. -/
def claimed_aggregate (att : List (List (List ℚ))) : Option (List ℚ) :=
  normalizeAtt (claimed_accumulate att)

/-- `padding_statement` of `statement_tokenization`
(src/deploy.py line 58): twenty copies of the pad token id (the literal
`range(20)` of the source, independent of the `max_statement_length`
parameter). -/
def padding_statement (padId : ℕ) : List ℕ := List.replicate 20 padId

/-- One iteration of `statement_tokenization`
(src/deploy.py lines 54-77) for a single code string.  The external
`tokenizer.encode` is a parameter.  `c.split("\n")` is `splitOn`;
blank statements are filtered, the list is truncated to `max_statements`,
padded with `padding_statement`, and the mask marks non-padding
statements.  No error is raised anywhere on this path. -/
def statement_tokenization_one (encode : String → List ℕ) (padId : ℕ)
    (max_statements : ℕ) (c : String) : List (List ℕ) × List ℕ :=
  let source := (c.splitOn "\n").filter (fun s => decide (s ≠ ""))
  let source := source.take max_statements
  let input_ids := source.map encode
  let input_ids :=
    input_ids ++ List.replicate (max_statements - input_ids.length) (padding_statement padId)
  let statement_mask :=
    input_ids.map (fun s => if s = padding_statement padId then (0 : ℕ) else 1)
  (input_ids, statement_mask)

/-- The separator-delimited groups of a token/score sequence: the sequence
is split immediately after every token whose display string contains the
separator glyph; the final group, if the sequence does not end in a
separator token, ends with the final token.  Thus every group ends with
the token that `get_all_lines_score` treats as its terminator (a separator
token, or the last token of the whole sequence). -/
def lineGroups : List (String × ℚ) → List (List (String × ℚ))
  | [] => []
  | t :: rest =>
    if sepIn t.1 then [t] :: lineGroups rest
    else
      match lineGroups rest with
      | [] => [[t]]
      | g :: gs => (t :: g) :: gs

/-- The score a group accumulates before its terminator token: the sum of
the scores of all tokens of the group except the last. -/
def prefScore (g : List (String × ℚ)) : ℚ := (g.dropLast.map Prod.snd).sum

/-- The score of a group's terminator token (its last token). -/
def lastScore (g : List (String × ℚ)) : ℚ := (g.getLast?.map Prod.snd).getD 0

/-- What `get_all_lines_score` emits for one separator-delimited group:
nothing when the accumulated score before the terminator is zero (the
`score_sum != 0` guard of src/deploy.py line 168), otherwise the
accumulated score plus the terminator's own score. -/
def emitGroup (g : List (String × ℚ)) : Option ℚ :=
  if prefScore g = 0 then none else some (prefScore g + lastScore g)

/-- Like `emitGroup` but with an explicit carried-in accumulator, used to
state the loop invariant of `get_all_lines_score` for the group currently
being scanned. -/
def emitFirst (acc : ℚ) (g : List (String × ℚ)) : List ℚ :=
  if acc + prefScore g = 0 then [] else [acc + prefScore g + lastScore g]

/-- The scores `get_all_lines_score` emits from the remaining groups, given
the accumulator carried into the first remaining group. -/
def emitAll (acc : ℚ) : List (List (String × ℚ)) → List ℚ
  | [] => []
  | g :: gs => emitFirst acc g ++ gs.filterMap emitGroup

/-- `statement_tokenization` over a batch (src/deploy.py lines 51-78):
independent per-example processing. -/
def statement_tokenization (encode : String → List ℕ) (padId : ℕ)
    (max_statements : ℕ) (code : List String) :
    List (List (List ℕ)) × List (List ℕ) :=
  ((code.map (statement_tokenization_one encode padId max_statements)).map Prod.fst,
   (code.map (statement_tokenization_one encode padId max_statements)).map Prod.snd)

/-! ### Helper lemmas about element-wise vector addition -/

lemma addVec_length (a b : List ℚ) : (addVec a b).length = min a.length b.length := by
  simp [addVec]

lemma addVec_getD (a : List ℚ) : ∀ (b : List ℚ) (p : ℕ), p < a.length → p < b.length →
    (addVec a b).getD p 0 = a.getD p 0 + b.getD p 0 := by
  induction a with
  | nil => intro b p hp _; simp at hp
  | cons x xs ih =>
    intro b p hpa hpb
    cases b with
    | nil => simp at hpb
    | cons y ys =>
      cases p with
      | zero => simp [addVec]
      | succ n =>
        have := ih ys n (by simpa using hpa) (by simpa using hpb)
        simpa [addVec] using this

lemma foldl_addVec_spec (L : ℕ) (vs : List (List ℚ)) :
    ∀ acc : List ℚ, acc.length = L → (∀ v ∈ vs, v.length = L) →
      (vs.foldl addVec acc).length = L ∧
      ∀ p, p < L → (vs.foldl addVec acc).getD p 0 =
        acc.getD p 0 + (vs.map (fun v => v.getD p 0)).sum := by
  induction vs with
  | nil => intro acc ha _; exact ⟨ha, fun p _ => by simp⟩
  | cons v vs ih =>
    intro acc ha hv
    have hvL : v.length = L := hv v (by simp)
    have hacc : (addVec acc v).length = L := by
      rw [addVec_length, ha, hvL, min_self]
    obtain ⟨h1, h2⟩ := ih (addVec acc v) hacc (fun u hu => hv u (by simp [hu]))
    refine ⟨h1, fun p hp => ?_⟩
    have hgetd := addVec_getD acc v p (by omega) (by omega)
    calc ((v :: vs).foldl addVec acc).getD p 0
        = (vs.foldl addVec (addVec acc v)).getD p 0 := by simp
      _ = (addVec acc v).getD p 0 + (vs.map (fun u => u.getD p 0)).sum := h2 p hp
      _ = acc.getD p 0 + ((v :: vs).map (fun u => u.getD p 0)).sum := by
          rw [hgetd]; simp [add_assoc]

lemma pySum_spec (L : ℕ) (r : List ℚ) (rs : List (List ℚ))
    (hr : ∀ x ∈ r :: rs, x.length = L) :
    (pySum (r :: rs)).length = L ∧
    ∀ p, p < L → (pySum (r :: rs)).getD p 0 = ((r :: rs).map (fun x => x.getD p 0)).sum := by
  obtain ⟨h1, h2⟩ :=
    foldl_addVec_spec L rs r (hr r (by simp)) (fun v hv => hr v (by simp [hv]))
  exact ⟨h1, fun p hp => by rw [show pySum (r :: rs) = rs.foldl addVec r from rfl, h2 p hp]; simp⟩

/-! ### Helper lemmas about `listMin` and `listMax` -/

lemma foldl_min_le (xs : List ℚ) : ∀ x : ℚ, xs.foldl min x ≤ x ∧ ∀ y ∈ xs, xs.foldl min x ≤ y := by
  induction xs with
  | nil => intro x; exact ⟨le_refl x, by simp⟩
  | cons a as ih =>
    intro x
    obtain ⟨h1, h2⟩ := ih (min x a)
    refine ⟨le_trans h1 (min_le_left _ _), fun y hy => ?_⟩
    rcases List.mem_cons.mp hy with rfl | hy
    · exact le_trans h1 (min_le_right _ _)
    · exact h2 y hy

lemma foldl_min_mem (xs : List ℚ) : ∀ x : ℚ, xs.foldl min x ∈ x :: xs := by
  induction xs with
  | nil => intro x; simp
  | cons a as ih =>
    intro x
    have h := ih (min x a)
    rcases List.mem_cons.mp h with h1 | h1
    · rcases min_choice x a with hc | hc <;> rw [List.foldl_cons, h1, hc] <;> simp
    · rw [List.foldl_cons]
      exact List.mem_cons.mpr (Or.inr (List.mem_cons.mpr (Or.inr h1)))

lemma foldl_max_ge (xs : List ℚ) : ∀ x : ℚ, x ≤ xs.foldl max x ∧ ∀ y ∈ xs, y ≤ xs.foldl max x := by
  induction xs with
  | nil => intro x; exact ⟨le_refl x, by simp⟩
  | cons a as ih =>
    intro x
    obtain ⟨h1, h2⟩ := ih (max x a)
    refine ⟨le_trans (le_max_left _ _) h1, fun y hy => ?_⟩
    rcases List.mem_cons.mp hy with rfl | hy
    · exact le_trans (le_max_right _ _) h1
    · exact h2 y hy

lemma foldl_max_mem (xs : List ℚ) : ∀ x : ℚ, xs.foldl max x ∈ x :: xs := by
  induction xs with
  | nil => intro x; simp
  | cons a as ih =>
    intro x
    have h := ih (max x a)
    rcases List.mem_cons.mp h with h1 | h1
    · rcases max_choice x a with hc | hc <;> rw [List.foldl_cons, h1, hc] <;> simp
    · rw [List.foldl_cons]
      exact List.mem_cons.mpr (Or.inr (List.mem_cons.mpr (Or.inr h1)))

lemma listMin_mem (v : List ℚ) (h : v ≠ []) : listMin v ∈ v := by
  cases v with
  | nil => exact absurd rfl h
  | cons x xs => exact foldl_min_mem xs x

lemma listMin_le (v : List ℚ) : ∀ y ∈ v, listMin v ≤ y := by
  cases v with
  | nil => simp
  | cons x xs =>
    intro y hy
    rcases List.mem_cons.mp hy with rfl | hy
    · exact (foldl_min_le xs y).1
    · exact (foldl_min_le xs x).2 y hy

lemma listMax_mem (v : List ℚ) (h : v ≠ []) : listMax v ∈ v := by
  cases v with
  | nil => exact absurd rfl h
  | cons x xs => exact foldl_max_mem xs x

lemma le_listMax (v : List ℚ) : ∀ y ∈ v, y ≤ listMax v := by
  cases v with
  | nil => simp
  | cons x xs =>
    intro y hy
    rcases List.mem_cons.mp hy with rfl | hy
    · exact (foldl_max_ge xs y).1
    · exact (foldl_max_ge xs x).2 y hy

lemma foldl_max_map_sub (c : ℚ) (xs : List ℚ) :
    ∀ x : ℚ, (xs.map (fun y => y - c)).foldl max (x - c) = xs.foldl max x - c := by
  induction xs with
  | nil => intro x; simp
  | cons a as ih =>
    intro x
    simp only [List.map_cons, List.foldl_cons]
    rw [max_sub_sub_right, ih]

lemma listMax_map_sub (v : List ℚ) (c : ℚ) (h : v ≠ []) :
    listMax (v.map (fun y => y - c)) = listMax v - c := by
  cases v with
  | nil => exact absurd rfl h
  | cons x xs =>
    show (xs.map (fun y => y - c)).foldl max (x - c) = xs.foldl max x - c
    exact foldl_max_map_sub c xs x

/-! ### Helper lemmas about `getD`, `set` and enumerated filters -/

lemma all_zero_getD (l : List ℚ) (h : ∀ x ∈ l, x = 0) : ∀ k, l.getD k 0 = 0 := by
  induction l with
  | nil => simp
  | cons x xs ih =>
    intro k
    cases k with
    | zero => simpa using h x (by simp)
    | succ n => exact ih (fun y hy => h y (by simp [hy])) n

lemma getD_set_self (l : List ℚ) (i : ℕ) (a : ℚ) (h : i < l.length) :
    (l.set i a).getD i 0 = a := by
  rw [List.getD_eq_getElem?_getD, List.getElem?_set_self (by simpa using h)]
  rfl

lemma getD_set_ne (l : List ℚ) (i j : ℕ) (a : ℚ) (h : i ≠ j) :
    (l.set i a).getD j 0 = l.getD j 0 := by
  rw [List.getD_eq_getElem?_getD, List.getElem?_set_ne h, ← List.getD_eq_getElem?_getD]

lemma mem_of_mem_enumFrom_snd (l : List ℚ) (n : ℕ) (q : ℕ × ℚ)
    (h : q ∈ l.enumFrom n) : q.2 ∈ l := by
  have h2 : q.2 ∈ (l.enumFrom n).map Prod.snd := List.mem_map_of_mem Prod.snd h
  rwa [List.enumFrom_map_snd] at h2

lemma enumFrom_filter_nil (l : List ℚ) (h : ∀ x ∈ l, x = 0) (n : ℕ) :
    (l.enumFrom n).filter (fun p => decide (p.2 ≠ 0)) = [] := by
  rw [List.filter_eq_nil_iff]
  intro a ha
  simp [h a.2 (mem_of_mem_enumFrom_snd l n a ha)]

lemma enumFrom_filter_nil_all_zero (l : List ℚ) (n : ℕ)
    (h : (l.enumFrom n).filter (fun p => decide (p.2 ≠ 0)) = []) :
    ∀ x ∈ l, x = 0 := by
  intro x hx
  rw [List.filter_eq_nil_iff] at h
  by_contra hne
  have hmem : x ∈ (l.enumFrom n).map Prod.snd := by rw [List.enumFrom_map_snd]; exact hx
  obtain ⟨q, hq, hq2⟩ := List.mem_map.mp hmem
  have hq0 : q.2 = 0 := by simpa using h q hq
  exact hne (hq2 ▸ hq0)

lemma lastNZ_spec (l : List ℚ) : ∀ (n : ℕ) (q : ℕ × ℚ),
    ((l.enumFrom n).filter (fun p => decide (p.2 ≠ 0))).getLast? = some q →
    n ≤ q.1 ∧ q.1 - n < l.length ∧ l.getD (q.1 - n) 0 = q.2 ∧ q.2 ≠ 0 ∧
      ∀ k, q.1 - n < k → l.getD k 0 = 0 := by
  induction l with
  | nil => intro n q h; simp at h
  | cons x xs ih =>
    intro n q h
    rw [List.enumFrom_cons] at h
    by_cases hx : x = 0
    · rw [List.filter_cons_of_neg (by simp [hx])] at h
      obtain ⟨h1, h2, h3, h4, h5⟩ := ih (n + 1) q h
      have hq1 : n + 1 ≤ q.1 := h1
      refine ⟨by omega, by simp; omega, ?_, h4, ?_⟩
      · have he : q.1 - n = (q.1 - (n + 1)) + 1 := by omega
        rw [he, List.getD_cons_succ]
        exact h3
      · intro k hk
        obtain ⟨k', rfl⟩ : ∃ k', k = k' + 1 := ⟨k - 1, by omega⟩
        rw [List.getD_cons_succ]
        exact h5 k' (by omega)
    · rw [List.filter_cons_of_pos (by simp [hx])] at h
      rcases hR : (xs.enumFrom (n + 1)).filter (fun p => decide (p.2 ≠ 0)) with _ | ⟨r, rs⟩
      · rw [hR] at h
        simp only [List.getLast?_singleton, Option.some.injEq] at h
        have hz : ∀ y ∈ xs, y = 0 := enumFrom_filter_nil_all_zero xs (n + 1) hR
        subst h
        refine ⟨le_refl n, by simp, by simp, hx, ?_⟩
        intro k hk
        obtain ⟨k', rfl⟩ : ∃ k', k = k' + 1 := ⟨k - 1, by omega⟩
        rw [List.getD_cons_succ]
        exact all_zero_getD xs hz k'
      · rw [hR, List.getLast?_cons_cons, ← hR] at h
        obtain ⟨h1, h2, h3, h4, h5⟩ := ih (n + 1) q h
        refine ⟨by omega, by simp; omega, ?_, h4, ?_⟩
        · have he : q.1 - n = (q.1 - (n + 1)) + 1 := by omega
          rw [he, List.getD_cons_succ]
          exact h3
        · intro k hk
          obtain ⟨k', rfl⟩ : ∃ k', k = k' + 1 := ⟨k - 1, by omega⟩
          rw [List.getD_cons_succ]
          exact h5 k' (by omega)

/-! ### Helper lemmas about `lineGroups` and `lineAux` -/

lemma lineGroups_cons_ne_nil (t : String × ℚ) (l : List (String × ℚ)) :
    lineGroups (t :: l) ≠ [] := by
  rw [lineGroups]
  by_cases h : sepIn t.1
  · simp [h]
  · simp only [h]
    rcases lineGroups l with _ | ⟨g, gs⟩ <;> simp

lemma lineGroups_mem_ne_nil : ∀ (l : List (String × ℚ)) (g : List (String × ℚ)),
    g ∈ lineGroups l → g ≠ [] := by
  intro l
  induction l with
  | nil => intro g hg; simp [lineGroups] at hg
  | cons t rest ih =>
    intro g hg
    rw [lineGroups] at hg
    by_cases h : sepIn t.1
    · simp only [h, if_true] at hg
      rcases List.mem_cons.mp hg with rfl | hg
      · simp
      · exact ih g hg
    · simp only [h, if_false, Bool.false_eq_true] at hg
      rcases hrest : lineGroups rest with _ | ⟨g', gs⟩
      · rw [hrest] at hg
        simp at hg
        simp [hg]
      · rw [hrest] at hg
        rcases List.mem_cons.mp hg with rfl | hg
        · simp
        · exact ih g (by rw [hrest]; exact List.mem_cons.mpr (Or.inr hg))

lemma prefScore_cons (t : String × ℚ) (g : List (String × ℚ)) (h : g ≠ []) :
    prefScore (t :: g) = t.2 + prefScore g := by
  rw [prefScore, prefScore, List.dropLast_cons_of_ne_nil h]
  simp

lemma lastScore_cons (t : String × ℚ) (g : List (String × ℚ)) (h : g ≠ []) :
    lastScore (t :: g) = lastScore g := by
  rw [lastScore, lastScore]
  rcases g with _ | ⟨u, us⟩
  · exact absurd rfl h
  · rw [List.getLast?_cons_cons]

lemma emitFirst_zero (g : List (String × ℚ)) (gs : List (List (String × ℚ))) :
    emitFirst 0 g ++ gs.filterMap emitGroup = (g :: gs).filterMap emitGroup := by
  rw [emitFirst, List.filterMap_cons, emitGroup]
  by_cases h : prefScore g = 0
  · simp [h]
  · simp [h]

lemma lineAux_eq_groups : ∀ (l : List (String × ℚ)) (acc : ℚ),
    lineAux acc l = emitAll acc (lineGroups l) := by
  intro l
  induction l with
  | nil => intro acc; simp [lineAux, lineGroups, emitAll]
  | cons t rest ih =>
    intro acc
    cases rest with
    | nil =>
      have hg : lineGroups [t] = [[t]] := by
        rw [lineGroups]
        by_cases h : sepIn t.1 <;> simp [h, lineGroups]
      rw [hg, lineAux, emitAll]
      simp only [List.filterMap_nil, List.append_nil, emitFirst, prefScore, lastScore]
      by_cases hacc : acc = 0
      · simp [hacc]
      · simp [hacc]
    | cons u rs =>
      by_cases hsep : sepIn t.1
      · have hg : lineGroups (t :: u :: rs) = [t] :: lineGroups (u :: rs) := by
          rw [lineGroups, if_pos hsep]
        rw [hg, emitAll]
        have htail : lineAux 0 (u :: rs) = (lineGroups (u :: rs)).filterMap emitGroup := by
          rw [ih 0]
          rcases hk : lineGroups (u :: rs) with _ | ⟨g, gs⟩
          · exact absurd hk (lineGroups_cons_ne_nil u rs)
          · rw [emitAll]; exact emitFirst_zero g gs
        by_cases hacc : acc = 0
        · subst hacc
          rw [show lineAux 0 (t :: u :: rs) = lineAux 0 (u :: rs) from by
            rw [lineAux, if_pos hsep]; simp]
          rw [htail, emitFirst]
          simp [prefScore]
        · rw [show lineAux acc (t :: u :: rs) = (acc + t.2) :: lineAux 0 (u :: rs) from by
            rw [lineAux, if_pos hsep, if_pos hacc]]
          rw [htail, emitFirst]
          simp only [prefScore, lastScore, List.dropLast_single, List.map_nil, List.sum_nil,
            add_zero, hacc, if_false]
          simp [List.getLast?_singleton]
      · have hstep : lineAux acc (t :: u :: rs) = lineAux (acc + t.2) (u :: rs) := by
          rw [lineAux, if_neg (by simp [hsep])]
        rcases hk : lineGroups (u :: rs) with _ | ⟨g, gs⟩
        · exact absurd hk (lineGroups_cons_ne_nil u rs)
        have hgne : g ≠ [] := lineGroups_mem_ne_nil (u :: rs) g (by rw [hk]; simp)
        have hg : lineGroups (t :: u :: rs) = (t :: g) :: gs := by
          rw [lineGroups, if_neg (by simp [hsep]), hk]
        rw [hstep, ih (acc + t.2), hk, hg, emitAll, emitAll]
        simp only [emitFirst, prefScore_cons t g hgne, lastScore_cons t g hgne, add_assoc]

lemma get_all_lines_eq_groups (l : List (String × ℚ)) :
    get_all_lines_score l = (lineGroups l).filterMap emitGroup := by
  rw [get_all_lines_score, lineAux_eq_groups l 0]
  rcases hk : lineGroups l with _ | ⟨g, gs⟩
  · simp [emitAll]
  · rw [emitAll]; exact emitFirst_zero g gs

/-! ### Claim C1 : attention aggregation -/

/-- Claim C1, counterexample: the code's aggregation of the tensor
`[[[0,1],[0,0]]]` yields `[0,1]` (column sums: token 1 received all the
attention), while the claim's row-sum formula yields `[1,0]`; the two
disagree. -/
theorem c1_rowsum_counterexample :
    aggregate_attention [[[0, 1], [0, 0]]] = some [0, 1] ∧
    claimed_aggregate [[[0, 1], [0, 0]]] = some [1, 0] ∧
    aggregate_attention [[[0, 1], [0, 0]]] ≠ claimed_aggregate [[[0, 1], [0, 0]]] := by
  refine ⟨?_, ?_, ?_⟩
  · with_unfolding_all rfl
  · with_unfolding_all rfl
  · with_unfolding_all decide

/-- Claim C1, amended: for a nonempty per-example tensor of `L × L` slices
(`L > 0`), the accumulated vector has length `L` and its entry at position
`p` is the sum over all slices and all query rows `q` of the entry at row
`q`, column `p` — the column sum, i.e. the total attention position `p`
received — and the aggregation normalizes this accumulated vector;
the batch maps the per-example aggregation over the examples. -/
theorem c1_aggregate_is_column_sum (L : ℕ) (hL : 0 < L) (att : List (List (List ℚ)))
    (hne : att ≠ []) (hdim : ∀ m ∈ att, m.length = L ∧ ∀ r ∈ m, r.length = L) :
    (accumulate att).length = L ∧
    (∀ p, p < L → (accumulate att).getD p 0 =
      (att.map (fun m => (m.map (fun r => r.getD p 0)).sum)).sum) ∧
    aggregate_attention att = normalizeAtt (accumulate att) ∧
    batch_aggregate = fun atts => atts.map aggregate_attention := by
  rcases att with _ | ⟨m, ms⟩
  · exact absurd rfl hne
  rcases m with _ | ⟨r, rs⟩
  · have := (hdim [] (by simp)).1
    simp at this
    omega
  obtain ⟨hp1, hp2⟩ := pySum_spec L r rs (hdim (r :: rs) (by simp)).2
  have hvs : ∀ u ∈ ms.map pySum, u.length = L := by
    intro u hu
    obtain ⟨m', hm', rfl⟩ := List.mem_map.mp hu
    have hd := hdim m' (by simp [hm'])
    rcases m' with _ | ⟨r', rs'⟩
    · simp at hd; omega
    · exact (pySum_spec L r' rs' hd.2).1
  have hfold := foldl_addVec_spec L (ms.map pySum) (pySum (r :: rs)) hp1 hvs
  have hacc : accumulate ((r :: rs) :: ms) = (ms.map pySum).foldl addVec (pySum (r :: rs)) := by
    rw [accumulate, List.foldl_map]
  refine ⟨?_, ?_, rfl, rfl⟩
  · rw [hacc]; exact hfold.1
  · intro p hp
    rw [hacc, hfold.2 p hp, hp2 p hp]
    rw [List.map_map]
    have hmapeq : ms.map ((fun v => v.getD p 0) ∘ pySum) =
        ms.map (fun m' => (m'.map (fun r' => r'.getD p 0)).sum) := by
      apply List.map_congr_left
      intro m' hm'
      have hd := hdim m' (by simp [hm'])
      rcases m' with _ | ⟨r', rs'⟩
      · simp at hd; omega
      · exact (pySum_spec L r' rs' hd.2).2 p hp
    rw [hmapeq]
    simp

/-- Claim C1, witness: the amended theorem applied to the concrete tensor
`[[[1,2],[3,4]]]` with `L = 2`. -/
theorem c1_aggregate_is_column_sum_witness :
    (0 < 2) ∧ (([[[1, 2], [3, 4]]] : List (List (List ℚ))) ≠ []) ∧
    (∀ m ∈ ([[[1, 2], [3, 4]]] : List (List (List ℚ))), m.length = 2 ∧ ∀ r ∈ m, r.length = 2) ∧
    ((accumulate [[[1, 2], [3, 4]]]).length = 2 ∧
      (∀ p, p < 2 → (accumulate [[[1, 2], [3, 4]]]).getD p 0 =
        (([[[1, 2], [3, 4]]] : List (List (List ℚ))).map
          (fun m => (m.map (fun r => r.getD p 0)).sum)).sum) ∧
      aggregate_attention [[[1, 2], [3, 4]]] = normalizeAtt (accumulate [[[1, 2], [3, 4]]]) ∧
      batch_aggregate = fun atts => atts.map aggregate_attention) :=
  ⟨by norm_num, by simp, by decide,
    c1_aggregate_is_column_sum 2 (by norm_num) [[[1, 2], [3, 4]]] (by simp) (by decide)⟩

/-! ### Claim C2 : degenerate (uniform) attention -/

/-- Claim C2 (code bug evidence): on the uniform attention tensor
`[[[1,1],[1,1]]]` the pipeline's aggregation subtracts the minimum, leaving
the all-zero vector, and then divides by its maximum `0` with no check:
every entry becomes numpy `0.0/0.0 = NaN` (modelled `none`).  There is no
explicit detection and no defined sentinel output. -/
theorem c2_uniform_attention_invalid :
    aggregate_attention [[[1, 1], [1, 1]]] = none ∧
    accumulate [[[1, 1], [1, 1]]] = [2, 2] ∧
    listMax ([2, 2].map (fun x => x - listMin [2, 2])) = 0 := by
  refine ⟨?_, ?_, ?_⟩ <;> with_unfolding_all rfl

/-! ### Claim C3 : concrete line grouping -/

/-- Claim C3: on the display tokens
`["<s>", "int", " x", "=", "1", "Ċ", "return", " x", "</s>"]` with scrubbed
scores `[0, 0.1, 0.2, 0.1, 0.1, 0.05, 0.3, 0.15, 0]` the line scorer emits
exactly `[0.55, 0.45]`: the separator's own score joins the line it
terminates, and the final token forces emission of the second line. -/
theorem c3_line_grouping_concrete :
    get_all_lines_score [("<s>", 0), ("int", 1/10), (" x", 1/5), ("=", 1/10), ("1", 1/10),
      ("Ċ", 1/20), ("return", 3/10), (" x", 3/20), ("</s>", 0)] = [11/20, 9/20] := by
  with_unfolding_all rfl

/-! ### Claim C4 : idempotence of scrubbing -/

/-- Claim C4, counterexample: with `padding=True` scrubbing is not
idempotent: on `[5,1,2,0]` one application yields `[0,1,0,0]`, a second
application zeroes the last remaining nonzero value and yields
`[0,0,0,0]`. -/
theorem c4_padded_scrub_not_idempotent :
    clean_special_token_values [5, 1, 2, 0] true = some [0, 1, 0, 0] ∧
    (clean_special_token_values [5, 1, 2, 0] true).bind
      (fun w => clean_special_token_values w true) = some [0, 0, 0, 0] ∧
    (clean_special_token_values [5, 1, 2, 0] true).bind
      (fun w => clean_special_token_values w true) ≠
      clean_special_token_values [5, 1, 2, 0] true := by
  refine ⟨?_, ?_, ?_⟩ <;> with_unfolding_all decide

/-- Claim C4, amended: scrubbing in the non-padded mode (`padding=False`)
is idempotent: re-scrubbing an already-scrubbed vector re-zeroes the same
two positions and returns it unchanged. -/
theorem c4_unpadded_scrub_idempotent (v w : List ℚ)
    (h : clean_special_token_values v false = some w) :
    clean_special_token_values w false = some w := by
  by_cases hv : v = []
  · rw [clean_special_token_values, if_pos hv] at h
    exact absurd h (by simp)
  rw [clean_special_token_values, if_neg hv] at h
  have h2 : some ((v.set 0 0).set ((v.set 0 0).length - 1) 0) = some w := h
  have hw : w = (v.set 0 0).set (v.length - 1) 0 := by
    have h3 := Option.some.inj h2
    rw [List.length_set] at h3
    exact h3.symm
  have hlen : w.length = v.length := by rw [hw]; simp
  have hwne : w ≠ [] := by
    intro hcon
    apply hv
    apply List.length_eq_zero.mp
    rw [← hlen, hcon]
    rfl
  rw [clean_special_token_values, if_neg hwne]
  have hset0 : w.set 0 0 = w := by
    rw [hw]
    by_cases h0 : v.length - 1 = 0
    · rw [h0, List.set_set, List.set_set]
    · rw [List.set_comm 0 0 _ (fun hc => h0 hc.symm), List.set_set]
  show some ((w.set 0 0).set ((w.set 0 0).length - 1) 0) = some w
  rw [hset0, hlen, hw, List.set_set]

/-- Claim C4, witness: the amended theorem applied to `[1,2]`, whose
non-padded scrub is `[0,0]`; re-scrubbing returns `[0,0]` unchanged. -/
theorem c4_unpadded_scrub_idempotent_witness :
    clean_special_token_values [1, 2] false = some [0, 0] ∧
    clean_special_token_values [0, 0] false = some [0, 0] :=
  ⟨by with_unfolding_all rfl,
    c4_unpadded_scrub_idempotent [1, 2] [0, 0] (by with_unfolding_all rfl)⟩

/-! ### Claim C6 : order of emitted line scores -/

/-- Claim C6, counterexample: on tokens `["a","Ċ","b","Ċ"]` with scores
`[0,0,1,0]` the scorer emits `[1]`, but the 0th separator-delimited group
(`"a"` and its terminating `"Ċ"`) has score sum `0 ≠ 1`: the j-th emitted
score is not the sum of the j-th group, because zero-score groups are
dropped. -/
theorem c6_jth_group_counterexample :
    get_all_lines_score [("a", 0), ("Ċ", 0), ("b", 1), ("Ċ", 0)] = [1] ∧
    (((lineGroups [("a", 0), ("Ċ", 0), ("b", 1), ("Ċ", 0)]).getD 0 []).map Prod.snd).sum
      = 0 := by
  refine ⟨?_, ?_⟩ <;> with_unfolding_all decide

/-- Claim C6, amended: the emitted line scores are exactly, and in order,
the per-group emissions of the separator-delimited groups (each group
emits its accumulated score — terminator included — when the accumulated
score before the terminator is nonzero, and is dropped otherwise); hence
the number of emitted scores is at most the number of separator-delimited
groups, which under the tokenizer's glyph contract is at most the number
of source lines. -/
theorem c6_line_scores_in_group_order (l : List (String × ℚ)) :
    get_all_lines_score l = (lineGroups l).filterMap emitGroup ∧
    (get_all_lines_score l).length ≤ (lineGroups l).length := by
  refine ⟨get_all_lines_eq_groups l, ?_⟩
  rw [get_all_lines_eq_groups l]
  exact List.length_filterMap_le _ _

/-! ### Claim C8 : separators met with a zero accumulator -/

/-- Claim C8: a token containing the separator glyph that is reached while
the running accumulator is zero emits nothing and is skipped: the output
equals the output on the remaining tokens.  In particular consecutive
separators with nothing accumulated between them emit no extra zero-score
line. -/
theorem c8_separator_with_zero_acc_skipped (t : String × ℚ) (rest : List (String × ℚ))
    (h : sepIn t.1 = true) :
    lineAux 0 (t :: rest) = lineAux 0 rest ∧
    get_all_lines_score (t :: rest) = get_all_lines_score rest := by
  have key : lineAux 0 (t :: rest) = lineAux 0 rest := by
    cases rest with
    | nil => simp [lineAux]
    | cons u rs => rw [lineAux, if_pos h]; simp
  exact ⟨key, key⟩

/-- Claim C8, witness: a separator token with score 5 at the head (zero
accumulator) is skipped. -/
theorem c8_separator_with_zero_acc_skipped_witness :
    sepIn "Ċ" = true ∧
    lineAux 0 [("Ċ", 5), ("a", 1)] = lineAux 0 [("a", 1)] ∧
    get_all_lines_score [("Ċ", 5), ("a", 1)] = get_all_lines_score [("a", 1)] :=
  ⟨rfl, (c8_separator_with_zero_acc_skipped ("Ċ", 5) [("a", 1)] rfl).1,
    (c8_separator_with_zero_acc_skipped ("Ċ", 5) [("a", 1)] rfl).2⟩

/-! ### Claim C9 : inputs with no non-empty lines -/

/-- Claim C9 (code bug evidence): for an input whose lines are all blank
(here `"\n\n"`), `statement_tokenization` raises nothing and silently
produces 155 padding statements with an all-zero statement mask, and the
line scorer on a boundary-tokens-only sequence silently produces an empty
score list; no `EmptyInputError` exists anywhere in the code. -/
theorem c9_blank_input_not_signalled (encode : String → List ℕ) (padId : ℕ) :
    (statement_tokenization_one encode padId 155 "\n\n").1 =
      List.replicate 155 (padding_statement padId) ∧
    (statement_tokenization_one encode padId 155 "\n\n").2 = List.replicate 155 0 ∧
    get_all_lines_score [("<s>", 0), ("</s>", 0)] = [] := by
  refine ⟨?_, ?_, ?_⟩
  · with_unfolding_all rfl
  · have h1 : (statement_tokenization_one encode padId 155 "\n\n").1 =
        List.replicate 155 (padding_statement padId) := by with_unfolding_all rfl
    have h2 : (statement_tokenization_one encode padId 155 "\n\n").2 =
        ((statement_tokenization_one encode padId 155 "\n\n").1).map
          (fun s => if s = padding_statement padId then (0 : ℕ) else 1) := by
      with_unfolding_all rfl
    rw [h2, h1, List.map_replicate, if_pos rfl]
  · with_unfolding_all rfl

/-! ### Claim C10 : the padded scrubber is not total -/

/-- Claim C10: on any nonempty score vector whose entries away from
position 0 are all zero, the padded-mode scrubber finds no nonzero value
after zeroing position 0, so the source's `[-1]` indexing raises
`IndexError` (modelled `none`): the error branch is reachable. -/
theorem c10_padded_scrub_has_no_result (v : List ℚ) (hne : v ≠ [])
    (hz : ∀ i, 0 < i → v.getD i 0 = 0) :
    clean_special_token_values v true = none := by
  have hvlen : 0 < v.length := List.length_pos.mpr hne
  have hall : ∀ x ∈ v.set 0 0, x = 0 := by
    intro x hx
    obtain ⟨i, hi, rfl⟩ := List.getElem_of_mem hx
    by_cases h0 : i = 0
    · subst h0
      rw [List.getElem_set_self]
    · rw [List.getElem_set_ne (fun hc => h0 hc.symm)]
      have hlen : i < v.length := by simpa using hi
      have hzi := hz i (Nat.pos_of_ne_zero h0)
      rw [List.getD_eq_getElem?_getD, List.getElem?_eq_getElem hlen] at hzi
      simpa using hzi
  have hfil : (v.set 0 0).enum.filter (fun p => decide (p.2 ≠ 0)) = [] := by
    rw [List.enum]
    exact enumFrom_filter_nil _ hall 0
  rw [clean_special_token_values, if_neg hne]
  have hgoal : (match (((v.set 0 0).enum.filter (fun p => decide (p.2 ≠ 0))).map
      Prod.fst).getLast? with
      | none => (none : Option (List ℚ))
      | some idx => some ((v.set 0 0).set idx 0)) = none := by
    rw [hfil]
    rfl
  exact hgoal

/-- Claim C10, witness: the vector `[5, 0]` is nonempty, zero away from
position 0, and the padded scrub of it has no result. -/
theorem c10_padded_scrub_has_no_result_witness :
    (([5, 0] : List ℚ) ≠ []) ∧ (∀ i, 0 < i → ([5, 0] : List ℚ).getD i 0 = 0) ∧
    clean_special_token_values [5, 0] true = none := by
  have hz : ∀ i, 0 < i → ([5, 0] : List ℚ).getD i 0 = 0 := by
    intro i hi
    rcases i with _ | _ | n
    · omega
    · rfl
    · simp
  exact ⟨by simp, hz, c10_padded_scrub_has_no_result [5, 0] (by simp) hz⟩

/-! ### Claim C5 : boundary zeroing and the pipeline's padding mode -/

/-- Claim C5, counterexample: the pipeline scrubs every input with
`padding=True` (src/deploy.py line 134).  For an unpadded input whose
aggregated vector is `[1, 1/2, 1, 0]`, the claimed non-padded mode would
zero the last position, giving `[0, 1/2, 1, 0]`, but the pipeline's call
zeroes the last nonzero value, giving `[0, 1/2, 0, 0]`. -/
theorem c5_pipeline_hardcodes_padded_scrub :
    main_scrub [1, 1/2, 1, 0] = some [0, 1/2, 0, 0] ∧
    clean_special_token_values [1, 1/2, 1, 0] false = some [0, 1/2, 1, 0] ∧
    main_scrub [1, 1/2, 1, 0] ≠ clean_special_token_values [1, 1/2, 1, 0] false := by
  refine ⟨?_, ?_, ?_⟩ <;> with_unfolding_all decide

/-- Claim C5, amended: whenever scrubbing succeeds, position 0 is zero; in
non-padded mode the last position is zeroed; every position that was
already zero stays zero (so padding positions remain zero); in padded mode
the zeroed trailing position is the last nonzero position of the vector
after zeroing position 0 (everything after it is zero); but the pipeline
itself always invokes the scrubber with `padding=True`, regardless of the
input's actual padding status. -/
theorem c5_scrub_boundary_zeroing (v : List ℚ) (padding : Bool) (w : List ℚ)
    (h : clean_special_token_values v padding = some w) :
    w.getD 0 0 = 0 ∧
    (padding = false → w.getD (w.length - 1) 0 = 0) ∧
    (∀ i, v.getD i 0 = 0 → w.getD i 0 = 0) ∧
    (padding = true → ∃ idx, (v.set 0 0).getD idx 0 ≠ 0 ∧ w = (v.set 0 0).set idx 0 ∧
      ∀ k, idx < k → (v.set 0 0).getD k 0 = 0) ∧
    main_scrub v = clean_special_token_values v true := by
  by_cases hv : v = []
  · rw [clean_special_token_values, if_pos hv] at h
    exact absurd h (by simp)
  have hvpos : 0 < v.length := List.length_pos.mpr hv
  rw [clean_special_token_values, if_neg hv] at h
  cases padding with
  | false =>
    have h2 : some ((v.set 0 0).set ((v.set 0 0).length - 1) 0) = some w := h
    have hw : w = (v.set 0 0).set (v.length - 1) 0 := by
      have h3 := Option.some.inj h2
      rw [List.length_set] at h3
      exact h3.symm
    have hwlen : w.length = v.length := by rw [hw]; simp
    refine ⟨?_, ?_, ?_, ?_, rfl⟩
    · rw [hw]
      by_cases h0 : v.length - 1 = 0
      · rw [h0]
        exact getD_set_self _ 0 0 (by simpa using hvpos)
      · rw [getD_set_ne _ _ _ _ h0]
        exact getD_set_self v 0 0 hvpos
    · intro _
      rw [hwlen, hw]
      exact getD_set_self _ _ 0 (by simp; omega)
    · intro i hi
      rw [hw]
      by_cases hlast : i = v.length - 1
      · subst hlast
        exact getD_set_self _ _ 0 (by simp; omega)
      · rw [getD_set_ne _ _ _ _ (fun hc => hlast hc.symm)]
        by_cases h0 : i = 0
        · subst h0
          exact getD_set_self v 0 0 hvpos
        · rw [getD_set_ne v 0 i 0 (fun hc => h0 hc.symm)]
          exact hi
    · intro hcon
      exact absurd hcon (by simp)
  | true =>
    have h2 : (match (((v.set 0 0).enum.filter (fun p => decide (p.2 ≠ 0))).map
        Prod.fst).getLast? with
        | none => (none : Option (List ℚ))
        | some idx => some ((v.set 0 0).set idx 0)) = some w := h
    rw [List.getLast?_map] at h2
    rcases hq : ((v.set 0 0).enum.filter (fun p => decide (p.2 ≠ 0))).getLast? with _ | ⟨q⟩
    · rw [hq] at h2
      simp at h2
    rw [hq] at h2
    simp only [Option.map_some'] at h2
    have h3 : some ((v.set 0 0).set q.1 0) = some w := h2
    have hw : w = (v.set 0 0).set q.1 0 := (Option.some.inj h3).symm
    obtain ⟨-, hlt, hval, hnz, hzero⟩ := lastNZ_spec (v.set 0 0) 0 q hq
    simp only [Nat.sub_zero] at hlt hval hzero
    have hq1len : q.1 < v.length := by simpa using hlt
    have hq1ne0 : q.1 ≠ 0 := by
      intro hc
      apply hnz
      rw [← hval, hc]
      exact getD_set_self v 0 0 hvpos
    refine ⟨?_, ?_, ?_, ?_, rfl⟩
    · rw [hw, getD_set_ne _ _ _ _ hq1ne0]
      exact getD_set_self v 0 0 hvpos
    · intro hcon
      exact absurd hcon (by simp)
    · intro i hi
      rw [hw]
      by_cases hiq : i = q.1
      · subst hiq
        exact getD_set_self _ _ 0 (by simpa using hq1len)
      · rw [getD_set_ne _ _ _ _ (fun hc => hiq hc.symm)]
        by_cases h0 : i = 0
        · subst h0
          exact getD_set_self v 0 0 hvpos
        · rw [getD_set_ne v 0 i 0 (fun hc => h0 hc.symm)]
          exact hi
    · intro _
      exact ⟨q.1, by rw [hval]; exact hnz, hw, hzero⟩

/-- Claim C5, witness: the amended theorem applied to the padded scrub of
`[1, 1/2, 1, 0]`, which yields `[0, 1/2, 0, 0]`. -/
theorem c5_scrub_boundary_zeroing_witness :
    clean_special_token_values [1, 1/2, 1, 0] true = some [0, 1/2, 0, 0] ∧
    (([0, 1/2, 0, 0] : List ℚ).getD 0 0 = 0 ∧
      (true = false →
        ([0, 1/2, 0, 0] : List ℚ).getD (([0, 1/2, 0, 0] : List ℚ).length - 1) 0 = 0) ∧
      (∀ i, ([1, 1/2, 1, 0] : List ℚ).getD i 0 = 0 →
        ([0, 1/2, 0, 0] : List ℚ).getD i 0 = 0) ∧
      (true = true → ∃ idx, (([1, 1/2, 1, 0] : List ℚ).set 0 0).getD idx 0 ≠ 0 ∧
        ([0, 1/2, 0, 0] : List ℚ) = (([1, 1/2, 1, 0] : List ℚ).set 0 0).set idx 0 ∧
        ∀ k, idx < k → (([1, 1/2, 1, 0] : List ℚ).set 0 0).getD k 0 = 0) ∧
      main_scrub [1, 1/2, 1, 0] = clean_special_token_values [1, 1/2, 1, 0] true) :=
  ⟨by with_unfolding_all decide,
    c5_scrub_boundary_zeroing [1, 1/2, 1, 0] true [0, 1/2, 0, 0]
      (by with_unfolding_all decide)⟩

/-! ### Claim C7 : normalization bounds -/

/-- Claim C7: for every vector holding two distinct values (the
non-degenerate case), min-max normalization succeeds and every resulting
score lies in `[0, 1]`, with the minimum position mapped to exactly `0`
and the maximum position mapped to exactly `1`. -/
theorem c7_normalization_bounds (v : List ℚ) (a b : ℚ) (ha : a ∈ v) (hb : b ∈ v)
    (hab : a ≠ b) :
    ∃ w, normalizeAtt v = some w ∧ (∀ x ∈ w, 0 ≤ x ∧ x ≤ 1) ∧ (0 : ℚ) ∈ w ∧ (1 : ℚ) ∈ w := by
  have hne : v ≠ [] := by
    intro hc
    rw [hc] at ha
    simp at ha
  have key : ∀ x ∈ v, listMin v ≤ x ∧ x ≤ listMax v :=
    fun x hx => ⟨listMin_le v x hx, le_listMax v x hx⟩
  have hmM : listMin v < listMax v := by
    by_contra hcon
    push_neg at hcon
    have hall : ∀ x ∈ v, x = listMin v :=
      fun x hx => le_antisymm (le_trans (key x hx).2 hcon) (key x hx).1
    exact hab ((hall a ha).trans (hall b hb).symm)
  have hMsub : listMax (v.map (fun x => x - listMin v)) = listMax v - listMin v :=
    listMax_map_sub v (listMin v) hne
  have hMpos : 0 < listMax v - listMin v := by linarith
  have hstep : normalizeAtt v = some ((v.map (fun x => x - listMin v)).map
      (fun x => x / listMax (v.map (fun y => y - listMin v)))) := by
    show (if listMax (v.map (fun x => x - listMin v)) = 0 then none
        else some ((v.map (fun x => x - listMin v)).map
          (fun x => x / listMax (v.map (fun y => y - listMin v))))) =
      some ((v.map (fun x => x - listMin v)).map
        (fun x => x / listMax (v.map (fun y => y - listMin v))))
    rw [if_neg (by rw [hMsub]; exact ne_of_gt hMpos)]
  refine ⟨_, hstep, ?_, ?_, ?_⟩
  · intro x hx
    obtain ⟨z, hz, rfl⟩ := List.mem_map.mp hx
    obtain ⟨y, hy, rfl⟩ := List.mem_map.mp hz
    rw [hMsub]
    constructor
    · exact div_nonneg (by linarith [(key y hy).1]) (le_of_lt hMpos)
    · rw [div_le_one hMpos]
      linarith [(key y hy).2]
  · refine List.mem_map.mpr ⟨listMin v - listMin v,
      List.mem_map.mpr ⟨listMin v, listMin_mem v hne, rfl⟩, by simp⟩
  · refine List.mem_map.mpr ⟨listMax v - listMin v,
      List.mem_map.mpr ⟨listMax v, listMax_mem v hne, rfl⟩, ?_⟩
    rw [hMsub]
    exact div_self (ne_of_gt hMpos)

/-- Claim C7, witness: the theorem applied to `[1, 3]`, whose two entries
differ. -/
theorem c7_normalization_bounds_witness :
    ((1 : ℚ) ∈ ([1, 3] : List ℚ)) ∧ ((3 : ℚ) ∈ ([1, 3] : List ℚ)) ∧ ((1 : ℚ) ≠ 3) ∧
    ∃ w, normalizeAtt [1, 3] = some w ∧ (∀ x ∈ w, 0 ≤ x ∧ x ≤ 1) ∧
      (0 : ℚ) ∈ w ∧ (1 : ℚ) ∈ w :=
  ⟨by simp, by simp, by norm_num,
    c7_normalization_bounds [1, 3] 1 3 (by simp) (by simp) (by norm_num)⟩
